import Mathlib

/-!
Verification of the attendance reconciliation pipeline of the webinar
dashboard (dashboard/server.js).  JavaScript strings are modelled as
lists of characters; JavaScript `Date` values are modelled by their
millisecond timestamps (`Int`), with `Option Int` standing for a value
that may be `null` / an invalid date.  JavaScript date-string parsing
(`new Date(string)`) is modelled by an explicit parameter
`parseDate : Str → Option Int` (`none` = invalid date); every theorem
quantifying over `parseDate` therefore holds for any parsing behaviour.
`Array.prototype.sort` (stable since ES2019) is modelled by
`List.mergeSort`, which is stable.
-/

open List

/-- JavaScript strings, modelled as lists of characters. -/
abbrev Str := List Char

/-- Models `String.prototype.toLowerCase()` on the ASCII range
(core `Char.toLower` lower-cases exactly the basic latin letters,
which is how the repository's URLs and emails behave). -/
def lowerStr (s : Str) : Str := s.map Char.toLower

/-- Models `String.prototype.trim()` (whitespace at both ends removed). -/
def trimStr (s : Str) : Str :=
  ((s.dropWhile Char.isWhitespace).reverse.dropWhile Char.isWhitespace).reverse

/-- Helper for `collapseWs`: collapses every run of adjacent spaces to one space. -/
def squeezeSpaces : Str → Str
  | [] => []
  | [c] => [c]
  | a :: b :: rest =>
    if a = ' ' ∧ b = ' ' then squeezeSpaces (b :: rest) else a :: squeezeSpaces (b :: rest)

/-- Models `.replace(/\s+/g, ' ')`: every maximal run of whitespace becomes
a single space character. -/
def collapseWs (s : Str) : Str :=
  squeezeSpaces (s.map (fun c => if c.isWhitespace then ' ' else c))

/-- Embeds `normalizeEmail` (server.js line 563): lower-case then trim;
a missing value is the empty string. -/
def normalizeEmail (s : Str) : Str := trimStr (lowerStr s)

/-- Embeds `normalizeName` (server.js line 567): lower-case, collapse
whitespace runs to single spaces, then trim. -/
def normalizeName (s : Str) : Str := trimStr (collapseWs (lowerStr s))

/-- One raw Zoom participant record as produced by `fetchZoomParticipants`
(server.js line 391): empty `email` and empty `joinTime` model the absent
value, `duration` is `null` or a number. -/
structure AttendanceRecord where
  name : Str
  email : Str
  joinTime : Str
  duration : Option Int
deriving DecidableEq, Repr

instance : Inhabited AttendanceRecord := ⟨⟨[], [], [], none⟩⟩

/-- One Calendly invitee as produced by the invitee mapping
(server.js line 660): name, email, status and optional phone. -/
structure Registrant where
  name : Str
  email : Str
  status : Str
  phone : Option Str
deriving DecidableEq, Repr

/-- Embeds `parseDateSafe` (server.js line 557) applied to a string value:
a falsy (empty) string gives `null`, otherwise the result of `new Date(s)`
(`none` for an invalid date) as supplied by the ambient `parseDate`. -/
def parseDateSafe (parseDate : Str → Option Int) (s : Str) : Option Int :=
  if s = [] then none else parseDate s

/-- The duration used for comparisons in the dedup loop
(server.js lines 596-597): a non-number duration counts as 0. -/
def durationOf (e : AttendanceRecord) : Int :=
  match e.duration with
  | some d => d
  | none => 0

/-- The dedup identity key (server.js lines 588-590): the lower-cased and
trimmed email when the raw email is non-empty, otherwise the lower-cased
name (or "guest" when the name is empty) joined to the raw join time with
a dash. -/
def dedupKey (e : AttendanceRecord) : Str :=
  if e.email ≠ [] then trimStr (lowerStr e.email)
  else lowerStr (if e.name ≠ [] then e.name else "guest".toList) ++ ('-' :: e.joinTime)

/-- Models `deduped.set(key, entry)` over a JavaScript `Map` held as an
association list in insertion order: setting an existing key updates the
entry in place (server.js lines 591-600 keep the entry with strictly
greater duration), a new key is appended. -/
def insertDedup (k : Str) (e : AttendanceRecord) :
    List (Str × AttendanceRecord) → List (Str × AttendanceRecord)
  | [] => [(k, e)]
  | (k2, e2) :: rest =>
    if k2 = k then
      (if durationOf e > durationOf e2 then (k2, e) else (k2, e2)) :: rest
    else (k2, e2) :: insertDedup k e rest

/-- The dedup `Map` built by the `forEach` loop (server.js lines 586-601),
as an association list in insertion order. -/
def dedupMap (l : List AttendanceRecord) : List (Str × AttendanceRecord) :=
  l.foldl (fun acc e => insertDedup (dedupKey e) e acc) []

/-- Lookup in the association-list model of the dedup `Map`. -/
def lookupKey (k : Str) : List (Str × AttendanceRecord) → Option AttendanceRecord
  | [] => none
  | (k2, e) :: rest => if k2 = k then some e else lookupKey k rest

/-- One hour in milliseconds. -/
def HOUR : Int := 3600000

/-- The join-time window filter predicate (server.js lines 573-584): with a
parseable session start, the window runs from two hours before the start to
one hour after the end (the end falling back to start plus two hours);
records with no parseable join time are kept; with no session start every
record is kept. -/
def windowKeep (parseDate : Str → Option Int) (sessionStart sessionEnd : Option Int)
    (e : AttendanceRecord) : Bool :=
  match sessionStart with
  | none => true
  | some s =>
    let fallbackEnd : Int :=
      match sessionEnd with
      | some x => x
      | none => s + 2 * HOUR
    match parseDateSafe parseDate e.joinTime with
    | none => true
    | some j => decide (s - 2 * HOUR ≤ j) && decide (j ≤ fallbackEnd + HOUR)

/-- The comparator of the final sort (server.js lines 603-610): records
without a parseable join time go last, otherwise ascending by join time. -/
def joinCmp (parseDate : Str → Option Int) (a b : AttendanceRecord) : Int :=
  match parseDateSafe parseDate a.joinTime, parseDateSafe parseDate b.joinTime with
  | none, none => 0
  | none, some _ => 1
  | some _, none => -1
  | some x, some y => x - y

/-- The boolean order corresponding to `joinCmp`: `a` may stay before `b`
exactly when the comparator is non-positive. -/
def joinLe (parseDate : Str → Option Int) (a b : AttendanceRecord) : Bool :=
  decide (joinCmp parseDate a b ≤ 0)

/-- Embeds `filterAndDedupAttendance` (server.js lines 571-611): empty input
gives empty output; otherwise the records are filtered by the join-time
window, deduplicated by `dedupKey` keeping the strictly longer duration,
and the surviving records are sorted ascending by parsed join time. -/
def filterAndDedupAttendance (parseDate : Str → Option Int)
    (attendees : List AttendanceRecord) (sessionStart sessionEnd : Option Int) :
    List AttendanceRecord :=
  if attendees = [] then []
  else
    ((dedupMap (attendees.filter (windowKeep parseDate sessionStart sessionEnd))).map
      Prod.snd).mergeSort (joinLe parseDate)

/-- Models `Set.prototype.add` over a list kept without duplicates. -/
def setInsert (s : List Str) (k : Str) : List Str :=
  if k ∈ s then s else s ++ [k]

/-- The registrant email set built by the `forEach` over registrants
(server.js lines 619-621): the normalized emails that are non-empty. -/
def registrantEmailSet (regs : List Registrant) : List Str :=
  regs.foldl
    (fun s r =>
      let k := normalizeEmail r.email
      if k ≠ [] then setInsert s k else s) []

/-- The registrant name set built by the same `forEach`
(server.js lines 622-623): the normalized names that are non-empty. -/
def registrantNameSet (regs : List Registrant) : List Str :=
  regs.foldl
    (fun s r =>
      let k := normalizeName r.name
      if k ≠ [] then setInsert s k else s) []

/-- The `forEach` over registrants (server.js lines 619-624) builds both
sets in one pass; modelled as a fold over the pair of sets. -/
def buildRegistrantSets (regs : List Registrant) : List Str × List Str :=
  regs.foldl
    (fun (acc : List Str × List Str) r =>
      let e := normalizeEmail r.email
      let acc1 := if e ≠ [] then (setInsert acc.1 e, acc.2) else acc
      let n := normalizeName r.name
      if n ≠ [] then (acc1.1, setInsert acc1.2 n) else acc1) ([], [])

/-- The loop state of the matching `forEach` (server.js lines 628-642):
the not-yet-consumed email and name sets and the two output lists. -/
structure MatchState where
  emails : List Str
  names : List Str
  matched : List AttendanceRecord
  external : List AttendanceRecord
deriving DecidableEq, Repr

/-- One iteration of the matching loop (server.js lines 628-642): email
match consumes the email, else name match consumes the name, else the
record is external. -/
def matchStep (st : MatchState) (entry : AttendanceRecord) : MatchState :=
  let email := normalizeEmail entry.email
  if email ≠ [] ∧ email ∈ st.emails then
    { st with matched := st.matched ++ [entry], emails := st.emails.erase email }
  else
    let nameKey := normalizeName entry.name
    if nameKey ≠ [] ∧ nameKey ∈ st.names then
      { st with matched := st.matched ++ [entry], names := st.names.erase nameKey }
    else
      { st with external := st.external ++ [entry] }

/-- Embeds `matchAttendanceToRegistrants` (server.js lines 613-644):
returns the pair of the `matched` and `external` lists. -/
def matchAttendanceToRegistrants (attendanceList : List AttendanceRecord)
    (registrants : List Registrant) : List AttendanceRecord × List AttendanceRecord :=
  if attendanceList = [] then ([], [])
  else
    let sets := buildRegistrantSets registrants
    let final := attendanceList.foldl matchStep ⟨sets.1, sets.2, [], []⟩
    (final.matched, final.external)

/-- Specification rendering of the matcher from the claim's words: iterate
in input order; a record is matched exactly when its non-empty normalized
email is in the not-yet-consumed email set (then consumed), or failing that
its non-empty normalized name is in the not-yet-consumed name set (then
consumed); otherwise it is external. -/
def matchSpecRec : List AttendanceRecord → List Str → List Str →
    List AttendanceRecord × List AttendanceRecord
  | [], _, _ => ([], [])
  | e :: rest, emails, names =>
    let email := normalizeEmail e.email
    if email ≠ [] ∧ email ∈ emails then
      let r := matchSpecRec rest (emails.erase email) names
      (e :: r.1, r.2)
    else
      let nameKey := normalizeName e.name
      if nameKey ≠ [] ∧ nameKey ∈ names then
        let r := matchSpecRec rest emails (names.erase nameKey)
        (e :: r.1, r.2)
      else
        let r := matchSpecRec rest emails names
        (r.1, e :: r.2)

/-- One item pushed into a cohort's list (server.js lines 690-696):
start time (milliseconds; the grouping key `toISOString()` determines and
is determined by this value), end time, event title and its invitees. -/
structure RawItem where
  startTime : Int
  endTime : Option Int
  eventName : Str
  invitees : List Registrant
deriving DecidableEq, Repr

/-- One entry of `sessionsMap` (server.js lines 703-715): the metadata of
the first event seen with this start time plus the accumulated attendees. -/
structure SessionAcc where
  date : Int
  endDate : Option Int
  eventName : Str
  attendees : List Registrant
deriving DecidableEq, Repr

/-- Pushes invitees onto the existing map entry with the given date
(server.js line 714), leaving other entries unchanged. -/
def addInvitees (d : Int) (inv : List Registrant) : List SessionAcc → List SessionAcc
  | [] => []
  | s :: rest =>
    if s.date = d then { s with attendees := s.attendees ++ inv } :: rest
    else s :: addInvitees d inv rest

/-- One iteration of the grouping `forEach` (server.js lines 703-715): a
new start time creates a map entry carrying the event's metadata, then the
item's invitees are pushed onto the entry with that start time. -/
def insertItem (acc : List SessionAcc) (item : RawItem) : List SessionAcc :=
  if acc.any (fun s => s.date = item.startTime) then
    addInvitees item.startTime item.invitees acc
  else
    acc ++ [{ date := item.startTime, endDate := item.endTime,
              eventName := item.eventName, attendees := item.invitees }]

/-- The `sessionsMap` of one cohort (server.js lines 701-715) as an
insertion-ordered list of accumulated sessions. -/
def groupSessions (items : List RawItem) : List SessionAcc :=
  items.foldl insertItem []

/-- The comparator `(a, b) => a.date - b.date` (server.js line 718) as a
boolean order. -/
def dateLe (a b : SessionAcc) : Bool := decide (a.date ≤ b.date)

/-- The sorted session list of one cohort (server.js lines 717-718):
the grouped sessions sorted ascending by start time. -/
def sortedSessions (items : List RawItem) : List SessionAcc :=
  (groupSessions items).mergeSort dateLe

/-- Per-cohort rollup as far as the global next-session pointer needs it
(server.js lines 761-766). -/
structure CohortStats where
  collective : Str
  sessions : List SessionAcc
deriving DecidableEq, Repr

/-- The flattened session list of `/api/webinars` (server.js lines 798-799). -/
def allSessions (stats : List CohortStats) : List SessionAcc :=
  stats.flatMap CohortStats.sessions

/-- The global next-session pointer (server.js lines 800-802): all sessions
sorted ascending by start time, then the first one (or none). -/
def nextSession (stats : List CohortStats) : Option SessionAcc :=
  ((allSessions stats).mergeSort dateLe).head?

/-- The next-session pointer as the claim words it: the minimum start time
among the sessions that are still in the future at computation time `now`,
or none when no session is in the future. -/
def nextSessionClaimed (now : Int) (stats : List CohortStats) : Option SessionAcc :=
  (((allSessions stats).filter (fun s => decide (now < s.date))).mergeSort dateLe).head?

/-- Models `Math.round(x)` for the non-negative rate argument:
round half up, that is the floor of `x + 1/2`. -/
def jsRound (x : ℚ) : ℤ := ⌊x + 1 / 2⌋

/-- Embeds the attendance-rate computation (server.js lines 749-751):
`attendanceRate` stays `null` unless the session has registrants and an
attendance count, in which case it is
`Math.round((attendanceCount / attendees.length) * 100)`. -/
def computeAttendanceRate (attendees : List Registrant) (attendanceCount : Option Nat) :
    Option ℤ :=
  if 0 < attendees.length ∧ attendanceCount.isSome then
    some (jsRound ((attendanceCount.getD 0 : ℚ) / (attendees.length : ℚ) * 100))
  else none

/-- Strips a lower-case pattern from the front of the input, comparing each
input character lower-cased (models one position of a case-insensitive
regex match); returns the rest of the original input on success. -/
def stripLowerPrefix : Str → Str → Option Str
  | [], s => some s
  | _ :: _, [] => none
  | p :: ps, c :: cs => if c.toLower = p then stripLowerPrefix ps cs else none

/-- Strips a pattern from the front of the input by plain character
equality; returns the rest of the input on success. -/
def stripPrefixEq : Str → Str → Option Str
  | [], s => some s
  | _ :: _, [] => none
  | p :: ps, c :: cs => if c = p then stripPrefixEq ps cs else none

/-- Tries the regex `zoom\.us\/[jw]\/(\d+)` (case-insensitive,
server.js line 550) at the current position; on success returns the
captured maximal digit run. -/
def tryJW (s : Str) : Option Str :=
  match stripLowerPrefix "zoom.us/".toList s with
  | none => none
  | some rest =>
    match rest with
    | [] => none
    | c :: rest2 =>
      if c.toLower = 'j' ∨ c.toLower = 'w' then
        match rest2 with
        | [] => none
        | c2 :: rest3 =>
          if c2.toLower = '/' then
            let ds := rest3.takeWhile Char.isDigit
            if ds = [] then none else some ds
          else none
      else none

/-- Same attempt on an already lower-cased input, with plain character
comparison (the claim's reading: search the lowercased URL for a literal
`zoom.us/j/` or `zoom.us/w/` segment followed by digits). -/
def tryJWLower (s : Str) : Option Str :=
  match stripPrefixEq "zoom.us/".toList s with
  | none => none
  | some rest =>
    match rest with
    | [] => none
    | c :: rest2 =>
      if c = 'j' ∨ c = 'w' then
        match rest2 with
        | [] => none
        | c2 :: rest3 =>
          if c2 = '/' then
            let ds := rest3.takeWhile Char.isDigit
            if ds = [] then none else some ds
          else none
      else none

/-- Leftmost match of the case-insensitive `zoom.us/[jw]/(\d+)` pattern. -/
def scanJW : Str → Option Str
  | [] => none
  | c :: rest =>
    match tryJW (c :: rest) with
    | some d => some d
    | none => scanJW rest

/-- Leftmost match of the plain pattern on a lower-cased input. -/
def scanJWLower : Str → Option Str
  | [] => none
  | c :: rest =>
    match tryJWLower (c :: rest) with
    | some d => some d
    | none => scanJWLower rest

/-- Tries the regex `(\d{9,12})` at the current position: at least nine
digits must start here, and greedily at most twelve are taken. -/
def tryDigits (s : Str) : Option Str :=
  let ds := s.takeWhile Char.isDigit
  if 9 ≤ ds.length then some (ds.take 12) else none

/-- Leftmost match of `(\d{9,12})` (server.js line 553). -/
def scanDigits : Str → Option Str
  | [] => none
  | c :: rest =>
    match tryDigits (c :: rest) with
    | some d => some d
    | none => scanDigits rest

/-- Embeds `extractZoomMeetingId` (server.js lines 547-555): `none` models
the null/undefined argument and the empty string models a falsy URL, both
giving null; otherwise the case-insensitive `zoom.us/[jw]/(\d+)` match on
the URL wins, else the first 9-to-12 digit run of the lowercased URL,
else null. -/
def extractZoomMeetingId : Option Str → Option Str
  | none => none
  | some url =>
    if url = [] then none
    else
      match scanJW url with
      | some d => some d
      | none => scanDigits (lowerStr url)

/-- The claim's rendering of `extractZoomMeetingId`: nothing for null or
empty input; otherwise the digit string after a literal `zoom.us/j/` or
`zoom.us/w/` segment, searched in the lowercased URL, else the first run
of 9 to 12 consecutive digits in the lowercased URL, else nothing. -/
def extractZoomMeetingIdSpec : Option Str → Option Str
  | none => none
  | some url =>
    if url = [] then none
    else
      match scanJWLower (lowerStr url) with
      | some d => some d
      | none => scanDigits (lowerStr url)

/-- The identity key the claim about deduplication asserts: normalized
email when non-empty, else the normalized name behind a "name:" prefix. -/
def claimedDedupKey (e : AttendanceRecord) : Str :=
  if normalizeEmail e.email ≠ [] then normalizeEmail e.email
  else "name:".toList ++ normalizeName e.name

/-- The record the dedup loop retains for one key, starting from the first
record seen: a later record replaces the current one exactly when its
duration is strictly greater (server.js lines 596-600). -/
def bestOf (h : AttendanceRecord) (t : List AttendanceRecord) : AttendanceRecord :=
  t.foldl (fun b e => if durationOf e > durationOf b then e else b) h

/-- A concrete date-parsing behaviour used by the concrete evaluations:
three join-time strings with known timestamps, everything else invalid. -/
def demoParse : Str → Option Int := fun s =>
  if s = "t1".toList then some 1
  else if s = "t2".toList then some 2
  else if s = "t9".toList then some 999999999
  else none

/-- Demo record: rejoin pair member with the shorter duration. -/
def recA : AttendanceRecord := ⟨"x".toList, "a@x.com".toList, [], some 10⟩

/-- Demo record: rejoin pair member with the longer duration. -/
def recB : AttendanceRecord := ⟨"y".toList, "a@x.com".toList, [], some 50⟩

/-- Demo record: login-less guest, join time t1. -/
def guest1 : AttendanceRecord := ⟨"ann".toList, [], "t1".toList, some 10⟩

/-- Demo record: the same guest name, join time t2. -/
def guest2 : AttendanceRecord := ⟨"ann".toList, [], "t2".toList, some 10⟩

/-- Demo record: distinct email, later join time t2. -/
def lateRec : AttendanceRecord := ⟨"p".toList, "b@x.com".toList, "t2".toList, some 5⟩

/-- Demo record: distinct email, earlier join time t1. -/
def earlyRec : AttendanceRecord := ⟨"q".toList, "a@x.com".toList, "t1".toList, some 5⟩

/-- Demo record whose join time t9 lies far outside any session window. -/
def farRec : AttendanceRecord := ⟨"r".toList, "c@x.com".toList, "t9".toList, some 5⟩

/-- Four demo registrants for the attendance-rate evaluation. -/
def regs4 : List Registrant :=
  [⟨"a".toList, [], [], none⟩, ⟨"b".toList, [], [], none⟩,
   ⟨"c".toList, [], [], none⟩, ⟨"d".toList, [], [], none⟩]

/-- A session whose start time (0) lies in the past of computation time 100. -/
def pastSession : SessionAcc := ⟨0, none, [], []⟩

/-- Cohort statistics holding only the past session. -/
def demoStats : List CohortStats := [⟨"m".toList, [pastSession]⟩]

/-- Demo registrants for the session-grouping evaluation. -/
def regA : Registrant := ⟨"A".toList, "a@x.com".toList, [], none⟩

/-- Second demo registrant. -/
def regB : Registrant := ⟨"B".toList, "b@x.com".toList, [], none⟩

/-- Third demo registrant. -/
def regC : Registrant := ⟨"C".toList, "c@x.com".toList, [], none⟩

/-- Two raw events with the identical start time 1000, contributing
registrants [A, B] and [C]. -/
def demoItems : List RawItem :=
  [⟨1000, none, "Bhopal Webinar".toList, [regA, regB]⟩,
   ⟨1000, none, "Bhopal Webinar".toList, [regC]⟩]


/-- One matcher step appends the incoming record to exactly one of the two
output lists. -/
theorem matchStep_append_perm (st : MatchState) (e : AttendanceRecord) :
    (matchStep st e).matched ++ (matchStep st e).external ~
      (st.matched ++ st.external) ++ [e] := by
  by_cases h1 : normalizeEmail e.email ≠ [] ∧ normalizeEmail e.email ∈ st.emails
  · have hs : matchStep st e =
        { st with matched := st.matched ++ [e],
                  emails := st.emails.erase (normalizeEmail e.email) } := by
      simp only [matchStep, if_pos h1]
    rw [hs]
    calc (st.matched ++ [e]) ++ st.external
        = st.matched ++ ([e] ++ st.external) := by simp
      _ ~ st.matched ++ (st.external ++ [e]) := Perm.append_left _ perm_append_comm
      _ = (st.matched ++ st.external) ++ [e] := by simp
  · by_cases h2 : normalizeName e.name ≠ [] ∧ normalizeName e.name ∈ st.names
    · have hs : matchStep st e =
          { st with matched := st.matched ++ [e],
                    names := st.names.erase (normalizeName e.name) } := by
        simp only [matchStep, if_neg h1, if_pos h2]
      rw [hs]
      calc (st.matched ++ [e]) ++ st.external
          = st.matched ++ ([e] ++ st.external) := by simp
        _ ~ st.matched ++ (st.external ++ [e]) := Perm.append_left _ perm_append_comm
        _ = (st.matched ++ st.external) ++ [e] := by simp
    · have hs : matchStep st e = { st with external := st.external ++ [e] } := by
        simp only [matchStep, if_neg h1, if_neg h2]
      rw [hs]
      simp

/-- Folding the matcher over a list appends, up to permutation, the whole
list to the two output lists taken together. -/
theorem foldl_matchStep_perm (l : List AttendanceRecord) :
    ∀ st : MatchState,
      (l.foldl matchStep st).matched ++ (l.foldl matchStep st).external ~
        (st.matched ++ st.external) ++ l := by
  induction l with
  | nil => intro st; simp
  | cons e rest ih =>
    intro st
    calc (rest.foldl matchStep (matchStep st e)).matched ++
            (rest.foldl matchStep (matchStep st e)).external
        ~ ((matchStep st e).matched ++ (matchStep st e).external) ++ rest := ih _
      _ ~ ((st.matched ++ st.external) ++ [e]) ++ rest :=
          (matchStep_append_perm st e).append_right rest
      _ = (st.matched ++ st.external) ++ (e :: rest) := by simp

/-- C1: for every attendance list and registrant list, the matcher returns
two lists whose lengths sum to the input length, and whose concatenation is
a permutation of the input, so each input record lands in exactly one of
the two lists. -/
theorem matchAttendanceToRegistrants_partition (att : List AttendanceRecord)
    (regs : List Registrant) :
    (matchAttendanceToRegistrants att regs).1.length +
        (matchAttendanceToRegistrants att regs).2.length = att.length ∧
      (matchAttendanceToRegistrants att regs).1 ++
        (matchAttendanceToRegistrants att regs).2 ~ att := by
  have key : (matchAttendanceToRegistrants att regs).1 ++
      (matchAttendanceToRegistrants att regs).2 ~ att := by
    by_cases h : att = []
    · simp [matchAttendanceToRegistrants, h]
    · have := foldl_matchStep_perm att
        ⟨(buildRegistrantSets regs).1, (buildRegistrantSets regs).2, [], []⟩
      simpa [matchAttendanceToRegistrants, h] using this
  refine ⟨?_, key⟩
  have := key.length_eq
  simpa using this

/-- Folding the matcher from a state with given sets and output prefixes
produces exactly the outputs of the specification recursion, appended to
the prefixes. -/
theorem foldl_matchStep_spec (l : List AttendanceRecord) :
    ∀ (emails names : List Str) (m x : List AttendanceRecord),
      (l.foldl matchStep ⟨emails, names, m, x⟩).matched =
          m ++ (matchSpecRec l emails names).1 ∧
        (l.foldl matchStep ⟨emails, names, m, x⟩).external =
          x ++ (matchSpecRec l emails names).2 := by
  induction l with
  | nil => intro emails names m x; simp [matchSpecRec]
  | cons e rest ih =>
    intro emails names m x
    simp only [List.foldl_cons]
    by_cases h1 : normalizeEmail e.email ≠ [] ∧ normalizeEmail e.email ∈ emails
    · have hs : matchStep ⟨emails, names, m, x⟩ e =
          ⟨emails.erase (normalizeEmail e.email), names, m ++ [e], x⟩ := by
        simp only [matchStep, if_pos h1]
      rw [hs]
      obtain ⟨hm, hx⟩ := ih (emails.erase (normalizeEmail e.email)) names (m ++ [e]) x
      rw [hm, hx]
      simp only [matchSpecRec, if_pos h1]
      constructor <;> simp
    · by_cases h2 : normalizeName e.name ≠ [] ∧ normalizeName e.name ∈ names
      · have hs : matchStep ⟨emails, names, m, x⟩ e =
            ⟨emails, names.erase (normalizeName e.name), m ++ [e], x⟩ := by
          simp only [matchStep, if_neg h1, if_pos h2]
        rw [hs]
        obtain ⟨hm, hx⟩ := ih emails (names.erase (normalizeName e.name)) (m ++ [e]) x
        rw [hm, hx]
        simp only [matchSpecRec, if_neg h1, if_pos h2]
        constructor <;> simp
      · have hs : matchStep ⟨emails, names, m, x⟩ e = ⟨emails, names, m, x ++ [e]⟩ := by
          simp only [matchStep, if_neg h1, if_neg h2]
        rw [hs]
        obtain ⟨hm, hx⟩ := ih emails names m (x ++ [e])
        rw [hm, hx]
        simp only [matchSpecRec, if_neg h1, if_neg h2]
        constructor <;> simp

/-- The one-pass fold over registrants builds exactly the email set and the
name set. -/
theorem buildRegistrantSets_eq (regs : List Registrant) :
    buildRegistrantSets regs = (registrantEmailSet regs, registrantNameSet regs) := by
  induction regs using List.reverseRecOn with
  | nil => rfl
  | append_singleton rest r ih =>
    simp only [buildRegistrantSets, registrantEmailSet, registrantNameSet,
      List.foldl_append, List.foldl_cons, List.foldl_nil] at ih ⊢
    rw [ih]
    dsimp only
    split_ifs <;> rfl

/-- C6: the matcher classifies exactly as specified: a record is matched
precisely when its non-empty normalized email is in the not-yet-consumed
email set (which is then consumed), or failing that its non-empty
normalized name is in the not-yet-consumed name set (then consumed);
otherwise it is external. -/
theorem matchAttendanceToRegistrants_spec_eq (att : List AttendanceRecord)
    (regs : List Registrant) :
    matchAttendanceToRegistrants att regs =
      matchSpecRec att (registrantEmailSet regs) (registrantNameSet regs) := by
  by_cases h : att = []
  · subst h; simp [matchAttendanceToRegistrants, matchSpecRec]
  · obtain ⟨hm, hx⟩ :=
      foldl_matchStep_spec att (registrantEmailSet regs) (registrantNameSet regs) [] []
    have hsets := buildRegistrantSets_eq regs
    simp only [matchAttendanceToRegistrants, if_neg h, hsets]
    exact Prod.ext (by simpa using hm) (by simpa using hx)

/-- Appending one record to the input performs one `Map.set` step. -/
theorem dedupMap_concat (l : List AttendanceRecord) (e : AttendanceRecord) :
    dedupMap (l ++ [e]) = insertDedup (dedupKey e) e (dedupMap l) := by
  simp [dedupMap, List.foldl_append]

/-- Every pair of the map after a `set` step was already present or is the
pair just set. -/
theorem mem_insertDedup {pr : Str × AttendanceRecord} {k : Str} {e : AttendanceRecord} :
    ∀ {acc : List (Str × AttendanceRecord)}, pr ∈ insertDedup k e acc →
      pr ∈ acc ∨ pr = (k, e) := by
  intro acc
  induction acc with
  | nil => intro h; simp only [insertDedup] at h; right; simpa using h
  | cons hd rest ih =>
    obtain ⟨k2, e2⟩ := hd
    intro h
    by_cases hk : k2 = k
    · subst hk
      simp only [insertDedup, if_pos rfl] at h
      rcases List.mem_cons.mp h with h | h
      · by_cases hdur : durationOf e > durationOf e2
        · rw [if_pos hdur] at h; right; exact h
        · rw [if_neg hdur] at h; left; rw [h]; exact List.mem_cons_self _ _
      · left; exact List.mem_cons_of_mem _ h
    · simp only [insertDedup, if_neg hk] at h
      rcases List.mem_cons.mp h with h | h
      · left; rw [h]; exact List.mem_cons_self _ _
      · rcases ih h with h | h
        · left; exact List.mem_cons_of_mem _ h
        · right; exact h

/-- Every pair of the dedup map holds a record of the input list under its
own dedup key. -/
theorem mem_dedupMap {pr : Str × AttendanceRecord} :
    ∀ {l : List AttendanceRecord}, pr ∈ dedupMap l → pr.2 ∈ l ∧ pr.1 = dedupKey pr.2 := by
  intro l
  induction l using List.reverseRecOn with
  | nil => intro h; simp [dedupMap] at h
  | append_singleton rest e ih =>
    intro h
    rw [dedupMap_concat] at h
    rcases mem_insertDedup h with h | h
    · obtain ⟨h1, h2⟩ := ih h
      exact ⟨List.mem_append_left _ h1, h2⟩
    · rw [h]
      exact ⟨List.mem_append_right _ (List.mem_singleton_self e), rfl⟩

/-- The key list after a `set` step: unchanged when the key was present,
extended by the key otherwise. -/
theorem keys_insertDedup (k : Str) (e : AttendanceRecord) :
    ∀ acc : List (Str × AttendanceRecord),
      (insertDedup k e acc).map Prod.fst =
        if k ∈ acc.map Prod.fst then acc.map Prod.fst else acc.map Prod.fst ++ [k] := by
  intro acc
  induction acc with
  | nil => simp [insertDedup]
  | cons hd rest ih =>
    obtain ⟨k2, e2⟩ := hd
    by_cases hk : k2 = k
    · subst hk
      by_cases hdur : durationOf e > durationOf e2 <;> simp [insertDedup, hdur]
    · simp only [insertDedup, if_neg hk, List.map_cons]
      rw [ih]
      have hne : (k ∈ k2 :: rest.map Prod.fst) ↔ k ∈ rest.map Prod.fst := by
        simp only [List.mem_cons, or_iff_right_iff_imp]
        intro h; exact absurd h.symm hk
      by_cases hm : k ∈ rest.map Prod.fst
      · simp [hm, hne.mpr hm]
      · rw [if_neg hm, if_neg (fun h => hm (hne.mp h))]
        simp

/-- The dedup map never holds two pairs with the same key. -/
theorem keys_nodup_dedupMap : ∀ l : List AttendanceRecord,
    ((dedupMap l).map Prod.fst).Nodup := by
  intro l
  induction l using List.reverseRecOn with
  | nil => simp [dedupMap]
  | append_singleton rest e ih =>
    rw [dedupMap_concat, keys_insertDedup]
    by_cases hm : dedupKey e ∈ (dedupMap rest).map Prod.fst
    · rwa [if_pos hm]
    · rw [if_neg hm]
      simp only [List.nodup_append, List.nodup_cons, List.not_mem_nil, not_false_eq_true,
        List.nodup_nil, and_true, true_and]
      refine ⟨ih, ?_⟩
      intro x hx hx2
      rcases List.mem_singleton.mp hx2 with rfl
      exact hm hx

/-- A `set` step with a fresh key appends the pair. -/
theorem insertDedup_of_not_mem (e : AttendanceRecord) :
    ∀ {k : Str} {acc : List (Str × AttendanceRecord)}, k ∉ acc.map Prod.fst →
      insertDedup k e acc = acc ++ [(k, e)] := by
  intro k acc
  induction acc with
  | nil => intro _; rfl
  | cons hd rest ih =>
    obtain ⟨k2, e2⟩ := hd
    intro h
    have hk : k2 ≠ k := by
      intro h2; exact h (by simp [h2])
    have htail : k ∉ rest.map Prod.fst := by
      intro h2; exact h (by simp [h2])
    simp only [insertDedup, if_neg hk, ih htail, List.cons_append]

/-- On a list whose dedup keys are pairwise distinct, the dedup map keeps
every record unchanged, in order. -/
theorem dedupMap_of_nodup_keys :
    ∀ {l : List AttendanceRecord}, (l.map dedupKey).Nodup →
      dedupMap l = l.map (fun e => (dedupKey e, e)) := by
  intro l
  induction l using List.reverseRecOn with
  | nil => intro _; rfl
  | append_singleton rest e ih =>
    intro h
    rw [List.map_append] at h
    rw [List.nodup_append] at h
    obtain ⟨h1, _, h3⟩ := h
    have hfresh : dedupKey e ∉ (dedupMap rest).map Prod.fst := by
      intro hx
      rcases List.mem_map.mp hx with ⟨pr, hpr, hfst⟩
      obtain ⟨hmem, hkey⟩ := mem_dedupMap hpr
      have : dedupKey e ∈ rest.map dedupKey := by
        rw [← hfst, hkey]
        exact List.mem_map_of_mem _ hmem
      exact h3 this (by simp)
    rw [dedupMap_concat, insertDedup_of_not_mem e hfresh, ih h1]
    simp

/-- How one `set` step changes a lookup: the set key now holds the
duration-maximising choice between the old and the new record, every other
key is untouched. -/
theorem lookupKey_insertDedup (k k2 : Str) (e : AttendanceRecord) :
    ∀ acc : List (Str × AttendanceRecord),
      lookupKey k (insertDedup k2 e acc) =
        if k2 = k then
          match lookupKey k acc with
          | none => some e
          | some old => some (if durationOf e > durationOf old then e else old)
        else lookupKey k acc := by
  intro acc
  induction acc with
  | nil =>
    by_cases h : k2 = k <;> simp [insertDedup, lookupKey, h]
  | cons hd rest ih =>
    obtain ⟨k3, e3⟩ := hd
    by_cases h32 : k3 = k2
    · subst h32
      by_cases h3k : k3 = k
      · subst h3k
        by_cases hdur : durationOf e > durationOf e3 <;>
          simp [insertDedup, lookupKey, hdur]
      · by_cases hdur : durationOf e > durationOf e3 <;>
          simp [insertDedup, lookupKey, h3k, hdur]
    · by_cases h3k : k3 = k
      · subst h3k
        have h2k : k2 ≠ k3 := fun h => h32 h.symm
        simp [insertDedup, lookupKey, h32, h2k]
      · simp only [insertDedup, if_neg h32, lookupKey, if_neg h3k]
        exact ih

/-- The duration-maximising fold extended by one record. -/
theorem bestOf_concat (h : AttendanceRecord) (t : List AttendanceRecord)
    (e : AttendanceRecord) :
    bestOf h (t ++ [e]) =
      if durationOf e > durationOf (bestOf h t) then e else bestOf h t := by
  simp [bestOf, List.foldl_append]

/-- C2 (amended): the dedup key is the lower-cased trimmed email when the
raw email is non-empty, otherwise the lower-cased name (or "guest") joined
with the raw join time; among the records sharing a key the map retains the
fold that replaces the current record exactly on strictly greater duration,
so ties keep the first-seen record. -/
theorem dedupMap_key_retention (l : List AttendanceRecord) (k : Str) :
    (l.filter (fun e => dedupKey e = k) = [] → lookupKey k (dedupMap l) = none) ∧
      ∀ h t, l.filter (fun e => dedupKey e = k) = h :: t →
        lookupKey k (dedupMap l) = some (bestOf h t) := by
  induction l using List.reverseRecOn with
  | nil => exact ⟨fun _ => rfl, fun h t ht => by simp at ht⟩
  | append_singleton rest e ih =>
    rw [dedupMap_concat, lookupKey_insertDedup]
    by_cases he : dedupKey e = k
    · rw [if_pos he]
      have hfil : (rest ++ [e]).filter (fun e => dedupKey e = k) =
          rest.filter (fun e => dedupKey e = k) ++ [e] := by
        simp [List.filter_append, he]
      constructor
      · intro habs
        rw [hfil] at habs
        simp at habs
      · intro h t ht
        rw [hfil] at ht
        cases hr : rest.filter (fun e => dedupKey e = k) with
        | nil =>
          rw [hr] at ht
          simp only [List.nil_append] at ht
          obtain ⟨heq, hteq⟩ := List.cons.inj ht
          subst heq
          subst hteq
          rw [ih.1 hr]
          rfl
        | cons h0 t0 =>
          rw [hr] at ht
          simp only [List.cons_append] at ht
          obtain ⟨heq, hteq⟩ := List.cons.inj ht
          subst heq
          subst hteq
          rw [ih.2 h0 t0 hr, bestOf_concat]
    · rw [if_neg he]
      have hfil : (rest ++ [e]).filter (fun e => dedupKey e = k) =
          rest.filter (fun e => dedupKey e = k) := by
        simp [List.filter_append, he]
      rw [hfil]
      exact ih

/-- C2 (counterexample): two records to which the claim assigns one and the
same identity key ("name:" plus the normalized name, independent of join
time) are nevertheless kept as two separate records by the code, because
the code keys a login-less guest by name AND join time. -/
theorem dedupKey_claim_counterexample :
    claimedDedupKey guest1 = claimedDedupKey guest2 ∧
      (filterAndDedupAttendance demoParse [guest1, guest2] none none).length = 2 := by
  refine ⟨rfl, ?_⟩
  have h : filterAndDedupAttendance demoParse [guest1, guest2] none none =
      ((dedupMap ([guest1, guest2].filter (windowKeep demoParse none none))).map
        Prod.snd).mergeSort (joinLe demoParse) := rfl
  rw [h, (mergeSort_perm _ _).length_eq]
  rfl

/-- Witness: for the two rejoin records with the same email key, the map
retains the second record, whose duration 50 beats the first record's 10. -/
theorem dedupMap_key_retention_witness :
    lookupKey (dedupKey recA) (dedupMap [recA, recB]) = some (bestOf recA [recB]) :=
  (dedupMap_key_retention [recA, recB] (dedupKey recA)).2 recA [recB] (by rfl)

/-- The sort order on records is transitive. -/
theorem joinLe_trans (parseDate : Str → Option Int) (a b c : AttendanceRecord) :
    joinLe parseDate a b → joinLe parseDate b c → joinLe parseDate a c := by
  simp only [joinLe, joinCmp, decide_eq_true_eq]
  rcases parseDateSafe parseDate a.joinTime with _ | x <;>
    rcases parseDateSafe parseDate b.joinTime with _ | y <;>
    rcases parseDateSafe parseDate c.joinTime with _ | z <;>
    simp <;> omega

/-- The sort order on records is total. -/
theorem joinLe_total (parseDate : Str → Option Int) (a b : AttendanceRecord) :
    joinLe parseDate a b || joinLe parseDate b a := by
  simp only [joinLe, joinCmp, Bool.or_eq_true, decide_eq_true_eq]
  rcases parseDateSafe parseDate a.joinTime with _ | x <;>
    rcases parseDateSafe parseDate b.joinTime with _ | y <;>
    simp <;> omega

/-- The output of the filter-dedup-sort pipeline is sorted by the join-time
comparator. -/
theorem filterAndDedup_pairwise (parseDate : Str → Option Int)
    (l : List AttendanceRecord) (ss se : Option Int) :
    (filterAndDedupAttendance parseDate l ss se).Pairwise (joinLe parseDate · ·) := by
  by_cases h : l = []
  · simp [filterAndDedupAttendance, h]
  · simp only [filterAndDedupAttendance, if_neg h]
    exact sorted_mergeSort (fun a b c => joinLe_trans parseDate a b c)
      (fun a b => joinLe_total parseDate a b) _

/-- The output of the pipeline is a permutation of the values of the dedup
map over the window-filtered input. -/
theorem filterAndDedup_perm (parseDate : Str → Option Int)
    (l : List AttendanceRecord) (ss se : Option Int) :
    filterAndDedupAttendance parseDate l ss se ~
      (dedupMap (l.filter (windowKeep parseDate ss se))).map Prod.snd := by
  by_cases h : l = []
  · simp [filterAndDedupAttendance, h, dedupMap]
  · simp only [filterAndDedupAttendance, if_neg h]
    exact mergeSort_perm _ _

/-- Every output record of the pipeline is an input record that passes the
join-time window. -/
theorem filterAndDedup_mem (parseDate : Str → Option Int)
    (l : List AttendanceRecord) (ss se : Option Int) (x : AttendanceRecord) :
    x ∈ filterAndDedupAttendance parseDate l ss se →
      x ∈ l ∧ windowKeep parseDate ss se x = true := by
  intro hx
  have h1 : x ∈ (dedupMap (l.filter (windowKeep parseDate ss se))).map Prod.snd :=
    (filterAndDedup_perm parseDate l ss se).mem_iff.mp hx
  rcases List.mem_map.mp h1 with ⟨pr, hpr, hsnd⟩
  have h2 := (mem_dedupMap hpr).1
  rw [hsnd] at h2
  exact List.mem_filter.mp h2

/-- C3 (counterexample): two records whose insertion order (the dedup map
order) is lateRec before earlyRec come out of the pipeline in a different
order, because the code re-sorts the output by join time. -/
theorem filterAndDedup_order_counterexample :
    (dedupMap [lateRec, earlyRec]).map Prod.snd = [lateRec, earlyRec] ∧
      filterAndDedupAttendance demoParse [lateRec, earlyRec] none none ≠
        [lateRec, earlyRec] := by
  refine ⟨rfl, ?_⟩
  intro habs
  have hp := filterAndDedup_pairwise demoParse [lateRec, earlyRec] none none
  rw [habs] at hp
  have h1 : joinLe demoParse lateRec earlyRec = true :=
    (List.pairwise_cons.mp hp).1 earlyRec (List.mem_singleton_self _)
  exact absurd h1 (by decide)

/-- C3 (amended): the pipeline output is the dedup map's records re-sorted
ascending by parsed join time (records without a parseable join time last):
it is sorted under the join-time comparator and is a permutation of the
dedup map's values in insertion order. -/
theorem filterAndDedup_sorted_spec (parseDate : Str → Option Int)
    (l : List AttendanceRecord) (ss se : Option Int) :
    (filterAndDedupAttendance parseDate l ss se).Pairwise (joinLe parseDate · ·) ∧
      filterAndDedupAttendance parseDate l ss se ~
        (dedupMap (l.filter (windowKeep parseDate ss se))).map Prod.snd :=
  ⟨filterAndDedup_pairwise parseDate l ss se, filterAndDedup_perm parseDate l ss se⟩

/-- C8 (counterexample): with a session start supplied, a record whose join
time lies far outside the window is dropped, so the output does not hold
one record per identity key of the whole input: time-window filtering is
still present in the code. -/
theorem window_filter_counterexample :
    (dedupMap [farRec]).map Prod.snd = [farRec] ∧
      filterAndDedupAttendance demoParse [farRec] (some 0) none = [] := by
  refine ⟨rfl, ?_⟩
  have h : filterAndDedupAttendance demoParse [farRec] (some 0) none =
      ((dedupMap ([farRec].filter (windowKeep demoParse (some 0) none))).map
        Prod.snd).mergeSort (joinLe demoParse) := rfl
  rw [h]
  rw [show ([farRec].filter (windowKeep demoParse (some 0) none)) = [] from rfl]
  simp [dedupMap]

/-- C8 (amended): every record the pipeline outputs is an input record that
passes the join-time window check; records with a parseable join time
outside the window around the session start/end are excluded, so
deduplication is not independent of join timestamps when a session start is
given (with no session start, the window check keeps everything). -/
theorem filterAndDedup_window_membership (parseDate : Str → Option Int)
    (l : List AttendanceRecord) (ss se : Option Int) (x : AttendanceRecord) :
    x ∈ filterAndDedupAttendance parseDate l ss se →
      x ∈ l ∧ windowKeep parseDate ss se x = true :=
  filterAndDedup_mem parseDate l ss se x

/-- Witness: an in-window record passes through the pipeline and the
membership theorem applies to it. -/
theorem filterAndDedup_window_membership_witness :
    guest1 ∈ [guest1] ∧ windowKeep demoParse none none guest1 = true := by
  refine filterAndDedup_window_membership demoParse [guest1] none none guest1 ?_
  have h : filterAndDedupAttendance demoParse [guest1] none none =
      ((dedupMap ([guest1].filter (windowKeep demoParse none none))).map
        Prod.snd).mergeSort (joinLe demoParse) := rfl
  rw [h]
  rw [show ((dedupMap ([guest1].filter (windowKeep demoParse none none))).map
      Prod.snd) = [guest1] from rfl]
  rw [mergeSort_singleton]
  exact List.mem_singleton_self _

/-- In the dedup map, taking each value's dedup key gives back the key
column. -/
theorem vals_dedupKey_eq_keys (l : List AttendanceRecord) :
    (dedupMap l).map (fun pr => dedupKey pr.2) = (dedupMap l).map Prod.fst :=
  List.map_congr_left (fun pr hpr => ((mem_dedupMap hpr).2).symm)

/-- The pipeline's output records have pairwise distinct dedup keys. -/
theorem filterAndDedup_keys_nodup (parseDate : Str → Option Int)
    (l : List AttendanceRecord) (ss se : Option Int) :
    ((filterAndDedupAttendance parseDate l ss se).map dedupKey).Nodup := by
  have hperm := (filterAndDedup_perm parseDate l ss se).map dedupKey
  have h2 : ((dedupMap (l.filter (windowKeep parseDate ss se))).map Prod.snd).map dedupKey =
      (dedupMap (l.filter (windowKeep parseDate ss se))).map Prod.fst := by
    rw [List.map_map]
    exact vals_dedupKey_eq_keys _
  rw [hperm.nodup_iff, h2]
  exact keys_nodup_dedupMap _

/-- C9: deduplication is idempotent: running the filter-dedup-sort pipeline
on its own output (with the same session start/end) returns that output
unchanged, for every date-parsing behaviour. -/
theorem filterAndDedup_idempotent (parseDate : Str → Option Int)
    (l : List AttendanceRecord) (ss se : Option Int) :
    filterAndDedupAttendance parseDate (filterAndDedupAttendance parseDate l ss se) ss se =
      filterAndDedupAttendance parseDate l ss se := by
  set F := filterAndDedupAttendance parseDate l ss se with hF
  by_cases hFe : F = []
  · rw [hFe]; rfl
  · have hguard : filterAndDedupAttendance parseDate F ss se =
        ((dedupMap (F.filter (windowKeep parseDate ss se))).map Prod.snd).mergeSort
          (joinLe parseDate) := by
      simp only [filterAndDedupAttendance, if_neg hFe]
    rw [hguard]
    have hfil : F.filter (windowKeep parseDate ss se) = F :=
      List.filter_eq_self.mpr
        (fun x hx => (filterAndDedup_mem parseDate l ss se x (hF ▸ hx)).2)
    rw [hfil]
    have hnodup : (F.map dedupKey).Nodup := filterAndDedup_keys_nodup parseDate l ss se
    rw [dedupMap_of_nodup_keys hnodup, List.map_map]
    rw [show (Prod.snd ∘ fun e : AttendanceRecord => (dedupKey e, e)) = id from rfl,
      List.map_id]
    exact mergeSort_of_sorted (filterAndDedup_pairwise parseDate l ss se)

/-- Pushing invitees into the map never changes the key column. -/
theorem addInvitees_dates (d : Int) (inv : List Registrant) :
    ∀ acc : List SessionAcc,
      (addInvitees d inv acc).map SessionAcc.date = acc.map SessionAcc.date := by
  intro acc
  induction acc with
  | nil => rfl
  | cons s rest ih =>
    by_cases h : s.date = d <;> simp [addInvitees, h, ih]

/-- With pairwise distinct dates, pushing invitees updates exactly the
entries carrying the pushed date. -/
theorem addInvitees_of_nodup (d : Int) (inv : List Registrant) :
    ∀ {acc : List SessionAcc}, (acc.map SessionAcc.date).Nodup →
      addInvitees d inv acc =
        acc.map (fun s =>
          if s.date = d then { s with attendees := s.attendees ++ inv } else s) := by
  intro acc
  induction acc with
  | nil => intro _; rfl
  | cons s rest ih =>
    intro h
    rw [List.map_cons, List.nodup_cons] at h
    obtain ⟨hd, hrest⟩ := h
    by_cases hs : s.date = d
    · simp only [addInvitees, if_pos hs, List.map_cons]
      congr 1
      have hall : ∀ t ∈ rest,
          (if t.date = d then { t with attendees := t.attendees ++ inv } else t) = t := by
        intro t ht
        rw [if_neg]
        intro h2
        exact hd (by
          rw [hs, ← h2]
          exact List.mem_map_of_mem SessionAcc.date ht)
      rw [List.map_congr_left hall]
      simp
    · simp only [addInvitees, if_neg hs, List.map_cons]
      congr 1
      exact ih hrest

/-- Pushing invitees onto an existing date appends them, up to permutation,
to the flattened attendee pool. -/
theorem flatten_addInvitees (d : Int) (inv : List Registrant) :
    ∀ acc : List SessionAcc, (∃ s0 ∈ acc, s0.date = d) →
      ((addInvitees d inv acc).map SessionAcc.attendees).flatten ~
        ((acc.map SessionAcc.attendees).flatten) ++ inv := by
  intro acc
  induction acc with
  | nil => intro h; simp at h
  | cons s rest ih =>
    intro hex
    by_cases hs : s.date = d
    · simp only [addInvitees, if_pos hs, List.map_cons, List.flatten_cons]
      calc (s.attendees ++ inv) ++ (rest.map SessionAcc.attendees).flatten
          = s.attendees ++ (inv ++ (rest.map SessionAcc.attendees).flatten) := by simp
        _ ~ s.attendees ++ ((rest.map SessionAcc.attendees).flatten ++ inv) :=
            Perm.append_left _ perm_append_comm
        _ = (s.attendees ++ (rest.map SessionAcc.attendees).flatten) ++ inv := by simp
    · have hex2 : ∃ s0 ∈ rest, s0.date = d := by
        rcases hex with ⟨s0, hs0, hsd⟩
        rcases List.mem_cons.mp hs0 with rfl | hs0
        · exact absurd hsd hs
        · exact ⟨s0, hs0, hsd⟩
      simp only [addInvitees, if_neg hs, List.map_cons, List.flatten_cons]
      calc s.attendees ++ ((addInvitees d inv rest).map SessionAcc.attendees).flatten
          ~ s.attendees ++ (((rest.map SessionAcc.attendees).flatten) ++ inv) :=
            Perm.append_left _ (ih hex2)
        _ = (s.attendees ++ (rest.map SessionAcc.attendees).flatten) ++ inv := by simp

/-- The grouping invariants of `sessionsMap`: dates are pairwise distinct,
a date occurs exactly when some processed event has that start time, every
entry's attendees are the concatenation in encounter order of the invitees
of the events sharing its date, and the flattened pool is a permutation of
all invitees. -/
theorem groupSessions_spec (items : List RawItem) :
    ((groupSessions items).map SessionAcc.date).Nodup ∧
      (∀ d : Int, d ∈ (groupSessions items).map SessionAcc.date ↔
        d ∈ items.map RawItem.startTime) ∧
      (∀ s ∈ groupSessions items, s.attendees =
        (items.filter (fun i => i.startTime = s.date)).flatMap RawItem.invitees) ∧
      ((groupSessions items).map SessionAcc.attendees).flatten ~
        items.flatMap RawItem.invitees := by
  induction items using List.reverseRecOn with
  | nil =>
    exact ⟨by simp [groupSessions], by simp [groupSessions],
      by simp [groupSessions], by simp [groupSessions]⟩
  | append_singleton rest it ih =>
    obtain ⟨hnd, hiff, hatt, hperm⟩ := ih
    have hstep : groupSessions (rest ++ [it]) = insertItem (groupSessions rest) it := by
      simp [groupSessions, List.foldl_append]
    by_cases hex : (groupSessions rest).any (fun s => s.date = it.startTime) = true
    · have hexE : ∃ s0 ∈ groupSessions rest, s0.date = it.startTime := by
        simpa [List.any_eq_true] using hex
    
      have hmemdate : it.startTime ∈ (groupSessions rest).map SessionAcc.date := by
        rcases hexE with ⟨s0, hs0, hsd⟩
        rw [← hsd]
        exact List.mem_map_of_mem _ hs0
      have hins : insertItem (groupSessions rest) it =
          addInvitees it.startTime it.invitees (groupSessions rest) := by
        simp [insertItem, hex]
      rw [hstep, hins]
      refine ⟨?_, ?_, ?_, ?_⟩
      · rw [addInvitees_dates]; exact hnd
      · intro d
        rw [addInvitees_dates]
        simp only [List.map_append, List.map_cons, List.map_nil, List.mem_append,
          List.mem_singleton]
        constructor
        · intro h; exact Or.inl ((hiff d).mp h)
        · intro h
          rcases h with h | h
          · exact (hiff d).mpr h
          · subst h; exact hmemdate
      · intro s hs
        rw [addInvitees_of_nodup it.startTime it.invitees hnd] at hs
        rcases List.mem_map.mp hs with ⟨s0, hs0, rfl⟩
        by_cases hs0d : s0.date = it.startTime
        · rw [if_pos hs0d]
          show s0.attendees ++ it.invitees = _
          rw [hatt s0 hs0, List.filter_append]
          have hit : it.startTime = s0.date := hs0d.symm
          simp [List.flatMap_append, hit]
        · rw [if_neg hs0d]
          rw [hatt s0 hs0, List.filter_append]
          have hne : ¬ (it.startTime = s0.date) := fun h => hs0d h.symm
          simp [List.flatMap_append, hne]
      · refine (flatten_addInvitees _ _ _ hexE).trans ?_
        rw [List.flatMap_append]
        simp only [List.flatMap_cons, List.flatMap_nil, List.append_nil]
        exact hperm.append_right _
    · have hnotmem : it.startTime ∉ (groupSessions rest).map SessionAcc.date := by
        intro h
        rcases List.mem_map.mp h with ⟨s0, hs0, hsd⟩
        exact hex (List.any_eq_true.mpr ⟨s0, hs0, by simp [hsd]⟩)
      have hins : insertItem (groupSessions rest) it =
          groupSessions rest ++ [⟨it.startTime, it.endTime, it.eventName, it.invitees⟩] := by
        simp [insertItem, hex]
      rw [hstep, hins]
      refine ⟨?_, ?_, ?_, ?_⟩
      · simp only [List.map_append, List.map_cons, List.map_nil]
        rw [List.nodup_append]
        refine ⟨hnd, List.nodup_singleton _, ?_⟩
        intro x hx hx2
        rcases List.mem_singleton.mp hx2 with rfl
        exact hnotmem hx
      · intro d
        simp only [List.map_append, List.map_cons, List.map_nil, List.mem_append,
          List.mem_singleton, hiff d]
      · intro s hs
        rcases List.mem_append.mp hs with hs | hs
        · rw [hatt s hs, List.filter_append]
          have hne : ¬ (it.startTime = s.date) := by
            intro h
            apply hnotmem
            rw [h]
            exact List.mem_map_of_mem _ hs
          simp [List.flatMap_append, hne]
        · rcases List.mem_singleton.mp hs with rfl
          have hfr : rest.filter (fun i => i.startTime = it.startTime) = [] := by
            rw [List.filter_eq_nil_iff]
            intro i hi
            simp only [decide_eq_true_eq]
            intro h
            apply hnotmem
            exact (hiff it.startTime).mpr (by rw [← h]; exact List.mem_map_of_mem _ hi)
          show it.invitees = _
          rw [List.filter_append, hfr]
          simp [List.flatMap_append]
      · rw [List.flatMap_append]
        simp only [List.map_append, List.map_cons, List.map_nil, List.flatten_append,
          List.flatten_cons, List.flatten_nil, List.append_nil, List.flatMap_cons,
          List.flatMap_nil]
        exact hperm.append_right _

/-- The session sort order is transitive. -/
theorem dateLe_trans (a b c : SessionAcc) :
    dateLe a b → dateLe b c → dateLe a c := by
  simp only [dateLe, decide_eq_true_eq]
  omega

/-- The session sort order is total. -/
theorem dateLe_total (a b : SessionAcc) : dateLe a b || dateLe b a := by
  simp only [dateLe, Bool.or_eq_true, decide_eq_true_eq]
  omega

/-- C5: session grouping is a partition: the flattened attendee lists of the
sorted sessions are a permutation of all input invitees, the sessions come
out sorted non-decreasing by start time, and each session's registrant list
is the concatenation in encounter order of the invitee lists of exactly the
events sharing its start instant. -/
theorem sessions_partition_sorted (items : List RawItem) :
    ((sortedSessions items).map SessionAcc.attendees).flatten ~
        items.flatMap RawItem.invitees ∧
      (sortedSessions items).Pairwise (fun a b => a.date ≤ b.date) ∧
      ∀ s ∈ sortedSessions items, s.attendees =
        (items.filter (fun i => i.startTime = s.date)).flatMap RawItem.invitees := by
  obtain ⟨_, _, hatt, hperm⟩ := groupSessions_spec items
  have hsort : sortedSessions items ~ groupSessions items := mergeSort_perm _ _
  refine ⟨((hsort.map _).flatten).trans hperm, ?_, ?_⟩
  · have hp := sorted_mergeSort dateLe_trans dateLe_total (groupSessions items)
    exact hp.imp (fun h => by simpa [dateLe] using h)
  · intro s hs
    exact hatt s (hsort.mem_iff.mp hs)

/-- Witness: the two demo events with identical start time 1000 merge into
the single session carrying registrants [A, B, C] in encounter order. -/
theorem sessions_partition_sorted_witness :
    (⟨1000, none, "Bhopal Webinar".toList, [regA, regB, regC]⟩ : SessionAcc).attendees =
      (demoItems.filter
        (fun i => i.startTime =
          (⟨1000, none, "Bhopal Webinar".toList, [regA, regB, regC]⟩ : SessionAcc).date)).flatMap
        RawItem.invitees := by
  refine (sessions_partition_sorted demoItems).2.2 _ ?_
  have h : sortedSessions demoItems =
      (groupSessions demoItems).mergeSort dateLe := rfl
  rw [h]
  rw [show groupSessions demoItems =
      [⟨1000, none, "Bhopal Webinar".toList, [regA, regB, regC]⟩] from rfl]
  rw [mergeSort_singleton]
  exact List.mem_singleton_self _

/-- C4 (counterexample): over cohort statistics holding a single session
whose start time 0 is already in the past of computation time 100, the code
still returns that session, while the claim demands none. -/
theorem nextSession_future_counterexample :
    nextSession demoStats = some pastSession ∧
      nextSessionClaimed 100 demoStats = none := by
  constructor
  · show ((allSessions demoStats).mergeSort dateLe).head? = some pastSession
    rw [show allSessions demoStats = [pastSession] from rfl, mergeSort_singleton]
    rfl
  · show (((allSessions demoStats).filter (fun s => decide (100 < s.date))).mergeSort
        dateLe).head? = none
    rw [show (allSessions demoStats).filter (fun s => decide (100 < s.date)) = []
        from rfl, mergeSort_nil]
    rfl

/-- C4 (amended): the global next-session pointer is the session with the
minimum start time among all sessions of all cohorts regardless of the
computation time, and it is none exactly when there are no sessions; when
every session still lies in the future this agrees with the claim. -/
theorem nextSession_min_spec (stats : List CohortStats) :
    (nextSession stats = none ↔ allSessions stats = []) ∧
      ∀ s, nextSession stats = some s →
        s ∈ allSessions stats ∧ ∀ t ∈ allSessions stats, s.date ≤ t.date := by
  have hperm : (allSessions stats).mergeSort dateLe ~ allSessions stats :=
    mergeSort_perm _ _
  constructor
  · constructor
    · intro h
      have h2 : (allSessions stats).mergeSort dateLe = [] :=
        List.head?_eq_none_iff.mp h
      exact (h2 ▸ hperm).symm.eq_nil
    · intro h
      show ((allSessions stats).mergeSort dateLe).head? = none
      rw [h, mergeSort_nil]
      rfl
  · intro s h
    obtain ⟨restS, hrest⟩ : ∃ restS, (allSessions stats).mergeSort dateLe = s :: restS := by
      cases hcase : (allSessions stats).mergeSort dateLe with
      | nil =>
        exfalso
        have : nextSession stats = none := by
          show ((allSessions stats).mergeSort dateLe).head? = none
          rw [hcase]
          rfl
        rw [this] at h
        exact Option.noConfusion h
      | cons a t =>
        refine ⟨t, ?_⟩
        have hsa : a = s := by
          have h2 : nextSession stats = some a := by
            show ((allSessions stats).mergeSort dateLe).head? = some a
            rw [hcase]
            rfl
          rw [h2] at h
          exact Option.some.inj h
        rw [hsa]
    constructor
    · exact hperm.mem_iff.mp (hrest ▸ List.mem_cons_self s restS)
    · intro t ht
      have hts : t ∈ (allSessions stats).mergeSort dateLe := hperm.mem_iff.mpr ht
      rw [hrest] at hts
      rcases List.mem_cons.mp hts with rfl | hts
      · exact le_refl _
      · have hp := sorted_mergeSort dateLe_trans dateLe_total (allSessions stats)
        rw [hrest] at hp
        have := (List.pairwise_cons.mp hp).1 t hts
        simpa [dateLe] using this

/-- Witness: the minimum property applied to the demo statistics. -/
theorem nextSession_min_spec_witness :
    pastSession ∈ allSessions demoStats ∧
      ∀ t ∈ allSessions demoStats, pastSession.date ≤ t.date := by
  refine (nextSession_min_spec demoStats).2 pastSession ?_
  show ((allSessions demoStats).mergeSort dateLe).head? = some pastSession
  rw [show allSessions demoStats = [pastSession] from rfl, mergeSort_singleton]
  rfl

/-- C7: the attendance rate stays null without an attendance count; with a
count it is null exactly when there are no registrants (the division is
guarded and never runs with a zero divisor), and otherwise equals the
half-up rounding of matched/registrants*100, computably
(200*c + n) / (2*n) in natural division. -/
theorem computeAttendanceRate_guard (regs : List Registrant) (c : Nat) :
    computeAttendanceRate regs none = none ∧
      (regs.length = 0 → computeAttendanceRate regs (some c) = none) ∧
      (0 < regs.length → computeAttendanceRate regs (some c) =
        some (((200 * c + regs.length) / (2 * regs.length) : ℕ) : ℤ)) := by
  refine ⟨by simp [computeAttendanceRate], ?_, ?_⟩
  · intro h
    simp [computeAttendanceRate, h]
  · intro h
    have hq : (0:ℚ) < (regs.length : ℚ) := by exact_mod_cast h
    rw [computeAttendanceRate, if_pos ⟨h, rfl⟩]
    congr 1
    show jsRound ((c : ℚ) / (regs.length : ℚ) * 100) = _
    unfold jsRound
    have heq : (c : ℚ) / (regs.length : ℚ) * 100 + 1 / 2 =
        ((200 * c + regs.length : ℕ) : ℚ) / ((2 * regs.length : ℕ) : ℚ) := by
      push_cast
      field_simp
      ring
    rw [heq, ← Nat.floor_div_eq_div (α := ℚ) (200 * c + regs.length) (2 * regs.length),
      Int.natCast_floor_eq_floor]
    positivity

/-- Witness: three matched of four registrants give a 75 percent rate. -/
theorem computeAttendanceRate_guard_witness :
    computeAttendanceRate regs4 (some 3) = some 75 := by
  have h := (computeAttendanceRate_guard regs4 3).2.2 (by decide)
  rw [h]
  rfl

/-- Packing a valid code point and unpacking it round-trips. -/
theorem char_toNat_ofNat {n : Nat} (h : n.isValidChar) : (Char.ofNat n).toNat = n := by
  rw [Char.ofNat, dif_pos h]
  rfl

/-- Digitness read off the code point. -/
theorem isDigit_iff (c : Char) : c.isDigit = true ↔ (48 ≤ c.toNat ∧ c.toNat ≤ 57) := by
  simp [Char.isDigit, UInt32.le_def, BitVec.le_def, Char.toNat, UInt32.toNat]

/-- Lower-casing never changes whether a character is a digit. -/
theorem isDigit_toLower (c : Char) : (Char.toLower c).isDigit = c.isDigit := by
  unfold Char.toLower
  by_cases h : 65 ≤ c.toNat ∧ c.toNat ≤ 90
  · rw [if_pos h]
    have hv : (c.toNat + 32).isValidChar := Or.inl (by omega)
    rw [Bool.eq_iff_iff, isDigit_iff, isDigit_iff, char_toNat_ofNat hv]
    omega
  · rw [if_neg h]

/-- Lower-casing fixes digits. -/
theorem toLower_of_isDigit {c : Char} (h : c.isDigit = true) : c.toLower = c := by
  rw [isDigit_iff] at h
  unfold Char.toLower
  rw [if_neg]
  omega

/-- Taking the leading digits of a lower-cased string equals taking the
leading digits of the original. -/
theorem takeWhile_isDigit_lowerStr (s : Str) :
    (lowerStr s).takeWhile Char.isDigit = s.takeWhile Char.isDigit := by
  induction s with
  | nil => rfl
  | cons c cs ih =>
    show (Char.toLower c :: lowerStr cs).takeWhile Char.isDigit = _
    by_cases h : c.isDigit = true
    · simp [List.takeWhile_cons, isDigit_toLower, h, toLower_of_isDigit h, ih]
    · rw [List.takeWhile_cons, List.takeWhile_cons, isDigit_toLower]
      simp [h]

/-- Stripping a pattern by plain comparison from the lower-cased input is
stripping it case-insensitively from the original, with the remainder
lower-cased. -/
theorem stripPrefixEq_lowerStr (p : Str) :
    ∀ s : Str, stripPrefixEq p (lowerStr s) = (stripLowerPrefix p s).map lowerStr := by
  induction p with
  | nil => intro s; rfl
  | cons pc pt ih =>
    intro s
    cases s with
    | nil => rfl
    | cons c cs =>
      show stripPrefixEq (pc :: pt) (Char.toLower c :: lowerStr cs) = _
      by_cases h : c.toLower = pc
      · simp [stripPrefixEq, stripLowerPrefix, h, ih cs]
      · simp [stripPrefixEq, stripLowerPrefix, h]

/-- The case-insensitive pattern attempt at one position equals the plain
attempt on the lower-cased input. -/
theorem tryJWLower_lowerStr (s : Str) : tryJWLower (lowerStr s) = tryJW s := by
  unfold tryJW tryJWLower
  rw [stripPrefixEq_lowerStr]
  cases hsp : stripLowerPrefix "zoom.us/".toList s with
  | none => rfl
  | some rest =>
    simp only [Option.map_some]
    cases rest with
    | nil => rfl
    | cons c rest2 =>
      show (match Char.toLower c :: lowerStr rest2 with
        | [] => none
        | c :: rest2 => _) = _
      by_cases hjw : c.toLower = 'j' ∨ c.toLower = 'w'
      · simp only [if_pos hjw]
        cases rest2 with
        | nil => rfl
        | cons c2 rest3 =>
          show (if Char.toLower c2 = '/' then
              if (lowerStr rest3).takeWhile Char.isDigit = [] then none
              else some ((lowerStr rest3).takeWhile Char.isDigit)
            else none) = _
          rw [takeWhile_isDigit_lowerStr]
      · simp only [if_neg hjw]

/-- Leftmost case-insensitive scanning equals plain scanning of the
lower-cased input. -/
theorem scanJWLower_lowerStr (s : Str) : scanJWLower (lowerStr s) = scanJW s := by
  induction s with
  | nil => rfl
  | cons c cs ih =>
    show scanJWLower (Char.toLower c :: lowerStr cs) = _
    have hhead : tryJWLower (Char.toLower c :: lowerStr cs) = tryJW (c :: cs) :=
      tryJWLower_lowerStr (c :: cs)
    simp only [scanJWLower, scanJW, hhead, ih]

/-- C10: extractZoomMeetingId is total and behaves exactly as described:
null, undefined or empty input gives null; otherwise the digit string after
a case-insensitive zoom.us/j/ or zoom.us/w/ segment — equivalently, after a
literal lowercase segment of the lowercased URL — wins; otherwise the first
run of 9 to 12 consecutive digits of the lowercased URL; otherwise null. -/
theorem extractZoomMeetingId_total_spec (o : Option Str) :
    extractZoomMeetingId o = extractZoomMeetingIdSpec o := by
  cases o with
  | none => rfl
  | some url =>
    by_cases h : url = []
    · simp [extractZoomMeetingId, extractZoomMeetingIdSpec, h]
    · simp only [extractZoomMeetingId, extractZoomMeetingIdSpec, if_neg h,
        scanJWLower_lowerStr]
